import Mathlib

/-!
Verification of the content resolution and navigation synthesis engine of a
documentation site.  The definitions below are a shallow embedding of the
TypeScript sources `src/composables/useContentQuery.ts`,
`src/plugins/mdc-components.ts` (frontmatter parsing and navigation
generation) and the ordering extraction of `src/composables/useNavigation.ts`.

Strings are modelled as lists of characters; the build-time content store
(`import.meta.glob` over `/src/content/**/*.md`) is modelled as an ordered
association list from virtual path to raw file text, the list order being the
store's key enumeration order.  JavaScript regular expressions appearing in the
sources are compiled, faithfully for the character ranges the route segments
use (alphanumerics, `-`, `_`, and `.` which is an unescaped wildcard in the
interpolated pattern), into a small token matcher.
-/

/-- Strings of the modelled program: lists of characters. -/
abbrev Str := List Char

/-- Shorthand turning a Lean string literal into the model's string type. -/
def lit (x : String) : Str := x.data

/-- The content store: ordered association list from virtual file path to raw
file text, in key enumeration order. -/
abbrev Store := List (Str × Str)

/-- Object-key lookup in the store (`contentModules[path]`): the value at the
first matching key, `none` when absent. -/
def lookup (store : Store) (key : Str) : Option Str :=
  (store.find? (fun q => q.1 == key)).map (·.2)

/-- Splits a string at every occurrence of a character, JavaScript
`String.prototype.split` semantics (`"a//b"` gives `["a","","b"]`,
`""` gives `[""]`). -/
def splitOnChar (c : Char) : Str → List Str
  | [] => [[]]
  | x :: xs =>
    if x == c then [] :: splitOnChar c xs
    else
      match splitOnChar c xs with
      | [] => [[x]]
      | h :: t => (x :: h) :: t

/-! ## Route-path to content-path resolution (`useContentQuery.ts`)

The resolver interpolates the route segments into regular expressions such as
`` `\d+\.${seg}[\/]\d+\.index\.md$` `` and tests every store key against them.
The patterns below are the compiled forms of those template strings: `.digits`
is `\d+`, `.any` is an unescaped `.` coming from the interpolated segment, and
`.lchar` is a literal character. -/

/-- A token of the compiled regular expressions used by the resolver. -/
inductive RTok where
  | digits
  | any
  | lchar (c : Char)
deriving DecidableEq

/-- Compiles an interpolated route segment: `.` is a regex wildcard, every
other modelled character stands for itself. -/
def compileSeg (seg : Str) : List RTok :=
  seg.map (fun c => if c == '.' then RTok.any else RTok.lchar c)

/-- Literal pattern text (escaped or letter characters of the template). -/
def litToks (t : Str) : List RTok := t.map RTok.lchar

/-- Whether the token list matches the whole string (`\d+` is one or more
digits, matched by existence as `RegExp.test` only reports a boolean). -/
def matchToks : List RTok → Str → Bool
  | [], u => u.isEmpty
  | _ :: _, [] => false
  | RTok.lchar c :: ts, x :: xs => x == c && matchToks ts xs
  | RTok.any :: ts, _ :: xs => matchToks ts xs
  | RTok.digits :: ts, x :: xs =>
    x.isDigit && (matchToks ts xs || matchToks (RTok.digits :: ts) xs)

/-- Whether an end-anchored pattern (trailing `$`, no leading `^`) matches the
string: some suffix is matched entirely. -/
def searchSuffix (toks : List RTok) : Str → Bool
  | [] => matchToks toks []
  | x :: xs => matchToks toks (x :: xs) || searchSuffix toks xs

/-- Compiled `` `\d+\.${seg}\.md$` `` (`indexPattern` of the single-segment
branch, also the final piece of the multi-segment pattern). -/
def segToksFile (seg : Str) : List RTok :=
  RTok.digits :: RTok.lchar '.' :: (compileSeg seg ++ [RTok.lchar '.', RTok.lchar 'm', RTok.lchar 'd'])

/-- Compiled `` `\d+\.${seg}[\/]\d+\.index\.md$` `` (`segmentPattern` of the
single-segment branch; `[\/]` is the single character `/`). -/
def segToksDirIdx (seg : Str) : List RTok :=
  RTok.digits :: RTok.lchar '.' ::
    (compileSeg seg ++ (RTok.lchar '/' :: RTok.digits :: RTok.lchar '.' :: litToks (lit "index.md")))

/-- Compiled multi-segment pattern: `` `\d+\.${s}\/` `` for every segment but
the last, then `` `\d+\.${last}\.md$` ``. -/
def multiToks : List Str → List RTok
  | [] => []
  | [last] => segToksFile last
  | sg :: rest =>
    RTok.digits :: RTok.lchar '.' :: (compileSeg sg ++ (RTok.lchar '/' :: multiToks rest))

/-- Whether a stored path is a candidate for the given route segments
(the body of the two `allContentPaths.forEach` filters). -/
def routeMatches (segments : List Str) (path : Str) : Bool :=
  match segments with
  | [] => false
  | [sg] => searchSuffix (segToksDirIdx sg) path || searchSuffix (segToksFile sg) path
  | _ => searchSuffix (multiToks segments) path

/-- Route segments: leading `/` stripped, then split on `/`. -/
def routeSegsOf (routePath : Str) : List Str :=
  splitOnChar '/' (if routePath.head? == some '/' then routePath.tail else routePath)

/-- Model of `routeToContentPath`: the ordered list of candidate stored paths
for a route path.  For `/` or the empty route it is the content root's index
file; otherwise the store's keys that match the compiled patterns, in key
enumeration order. -/
def routeToContentPath (store : Store) (routePath : Str) : List Str :=
  if routePath = lit "/" ∨ routePath = [] then [lit "/src/content/index.md"]
  else (store.map (·.1)).filter (routeMatches (routeSegsOf routePath))

/-- The `for (const path of contentPaths)` loop of `findOne`: the first
candidate whose stored content is truthy (present and nonempty). -/
def firstTruthy (store : Store) : List Str → Option Str
  | [] => none
  | p :: rest =>
    match lookup store p with
    | some txt => if txt.isEmpty then firstTruthy store rest else some txt
    | none => firstTruthy store rest

/-- Model of `findOne`: resolves a route path to the raw text of the first
matching stored document, `none` when no candidate matches.  (The markdown
AST production is an external collaborator and is not modelled; the resolved
document is represented by its raw text.) -/
def findOne (store : Store) (routePath : Str) : Option Str :=
  firstTruthy store (routeToContentPath store routePath)

/-! ## Front-matter parsing (`mdc-components.ts`)

`parseFrontmatter` recognises `^---\r?\n([\s\S]+?)\r?\n---\r?\n` (the `+?` is
lazy, so the shortest inner block wins) and decodes the block line by line
with a hand-rolled `parseYaml`. -/

/-- JavaScript whitespace as trimmed by `String.prototype.trim` (the ASCII
part; the sources only ever meet spaces and tabs here). -/
def jsSpace (c : Char) : Bool :=
  c == ' ' || c == '\t' || c == '\r' || c == '\n' || c == '\x0b' || c == '\x0c'

/-- Left part of `trim`. -/
def trimLeft (t : Str) : Str := t.dropWhile jsSpace

/-- Right part of `trim`. -/
def trimRight (t : Str) : Str := (t.reverse.dropWhile jsSpace).reverse

/-- JavaScript `String.prototype.trim`. -/
def jsTrim (t : Str) : Str := trimRight (trimLeft t)

/-- Matches `\r?\n` at the start of the string (greedy `\r?`: a leading
carriage return must be followed by the newline), returning the rest. -/
def stripNL : Str → Option Str
  | '\r' :: '\n' :: r => some r
  | '\n' :: r => some r
  | _ => none

/-- Matches `\r?\n---\r?\n` at the start of the string, returning the text
after the closing delimiter. -/
def tryClose (u : Str) : Option Str :=
  (stripNL u).bind fun u1 =>
    match u1 with
    | '-' :: '-' :: '-' :: u2 => stripNL u2
    | _ => none

/-- The lazy `([\s\S]+?)\r?\n---\r?\n` search: the shortest nonempty inner
text followed by the closing delimiter; returns (inner text, body after). -/
def scanClose : Str → Option (Str × Str)
  | [] => none
  | c :: rest =>
    match tryClose rest with
    | some body => some ([c], body)
    | none => (scanClose rest).map (fun q => (c :: q.1, q.2))

/-- The anchored front-matter block match: `---`, a newline, the lazy inner
scan.  Returns (front-matter text, body) when the document starts with a
well-formed block. -/
def matchFM (t : Str) : Option (Str × Str) :=
  match t with
  | '-' :: '-' :: '-' :: t1 => (stripNL t1).bind scanClose
  | _ => none

/-- A decoded YAML-subset value. -/
inductive YVal where
  | str (v : Str)
  | bool (b : Bool)
  | null
  | int (n : Nat)
  | float (raw : Str)
  | obj (fields : List (Str × YVal))

/-- A decoded metadata object: fields in insertion order. -/
abbrev YObj := List (Str × YVal)

/-- JavaScript truthiness of a decoded value (`0`, `''`, `false`, `null` and
a float whose digits are all zero are falsy). -/
def truthy : YVal → Bool
  | YVal.str v => !v.isEmpty
  | YVal.bool b => b
  | YVal.null => false
  | YVal.int n => n != 0
  | YVal.float raw => raw.any (fun c => c.isDigit && c != '0')
  | YVal.obj _ => true

/-- Object-property read. -/
def getKey (fs : YObj) (k : Str) : Option YVal :=
  (fs.find? (fun q => q.1 == k)).map (·.2)

/-- Object-property assignment: overwrites in place, appends new keys. -/
def setKey : YObj → Str → YVal → YObj
  | [], k, v => [(k, v)]
  | (k', w) :: rest, k, v =>
    if k' == k then (k', v) :: rest else (k', w) :: setKey rest k v

/-- The optional-chained nested read `data.k1?.k2`: `undefined` when `k1` is
missing or not an object (property access on a primitive yields
`undefined`). -/
def getNested (fs : YObj) (k1 k2 : Str) : Option YVal :=
  match getKey fs k1 with
  | some (YVal.obj gs) => getKey gs k2
  | _ => none

/-- Decimal digits to a number (`parseInt(value, 10)` on an all-digit
string). -/
def natDigits (d : Str) : Nat :=
  d.foldl (fun n c => n * 10 + (c.toNat - '0'.toNat)) 0

/-- Whether the string matches `^[0-9]*\.[0-9]+$`. -/
def floatShape (v : Str) : Bool :=
  let a := v.takeWhile Char.isDigit
  let rest := v.drop (a.length + 1)
  (v.drop a.length).head? == some '.' && !rest.isEmpty && rest.all Char.isDigit

/-- Model of `parseValue`: scalar coercion in source order (empty, booleans,
`null`, integer shape, float shape — kept symbolically as its literal text —
quoted strings, plain text). -/
def parseValue (value : Str) : YVal :=
  if value.isEmpty then YVal.str []
  else if value = lit "true" then YVal.bool true
  else if value = lit "false" then YVal.bool false
  else if value = lit "null" then YVal.null
  else if value.all Char.isDigit then YVal.int (natDigits value)
  else if floatShape value then YVal.float value
  else if (value.head? == some '"' && value.getLast? == some '"') ||
      (value.head? == some '\'' && value.getLast? == some '\'') then
    YVal.str (value.tail.dropLast)
  else YVal.str value

/-- The dotted-key walk (`a.b: 1` expands to `{a: {b: 1}}`): absent or falsy
intermediate values are replaced by fresh objects; a truthy scalar on the
path makes the JavaScript assignment on a primitive fail, modelled as a lost
write (unreachable for the documents considered here). -/
def dotAssign (data : YObj) : List Str → YVal → YObj
  | [], _ => data
  | [k], v => setKey data k v
  | k :: k2 :: rest, v =>
    match getKey data k with
    | some (YVal.obj gs) => setKey data k (YVal.obj (dotAssign gs (k2 :: rest) v))
    | some w =>
      if truthy w then data
      else setKey data k (YVal.obj (dotAssign [] (k2 :: rest) v))
    | none => setKey data k (YVal.obj (dotAssign [] (k2 :: rest) v))

/-- The index of the first colon (`line.indexOf(':')`, `none` for -1). -/
def idxOfColon : Str → Option Nat
  | [] => none
  | c :: rest => if c == ':' then some 0 else (idxOfColon rest).map (· + 1)

/-- Whether the trimmed key still begins with two spaces or a tab
(`key.startsWith('  ') || key.startsWith('\t')` — the source's dead
nested-indentation test: keys are trimmed first, so this can never hold). -/
def isIndentKey (key : Str) : Bool :=
  (lit "  ").isPrefixOf key || (lit "\t").isPrefixOf key

/-- One iteration of `parseYaml`'s line loop: skip blanks and comments, split
at the first colon, trim key and value, handle the (dead) indentation test,
dotted keys and plain top-level keys. -/
def processYamlLine (data : YObj) (line : Str) : YObj :=
  let t := jsTrim line
  if t.isEmpty || t.head? == some '#' then data
  else
    match idxOfColon line with
    | none => data
    | some i =>
      let key := jsTrim (line.take i)
      let value := jsTrim (line.drop (i + 1))
      if key.isEmpty then data
      else if isIndentKey key then data
      else if key.contains '.' then dotAssign data (splitOnChar '.' key) (parseValue value)
      else setKey data key (parseValue value)

/-- Removes the `\r` left by splitting `\r\n` sequences on `\n`. -/
def chopCR (p : Str) : Str := if p.getLast? == some '\r' then p.dropLast else p

/-- Helper of `splitRN`: every piece but the last was followed by a newline
and sheds a trailing `\r`. -/
def splitRNAux : List Str → List Str
  | [] => []
  | [last] => [last]
  | p :: rest => chopCR p :: splitRNAux rest

/-- `content.split(/\r?\n/)`. -/
def splitRN (t : Str) : List Str := splitRNAux (splitOnChar '\n' t)

/-- Model of `parseYaml`: folds the line processor over the lines. -/
def parseYaml (content : Str) : YObj :=
  (splitRN content).foldl processYamlLine []

/-- Model of `parseFrontmatter`: `{ data, content }` — the decoded metadata
and the body after the block, or empty metadata and the unchanged text when
no block is present. -/
def parseFrontmatter (content : Str) : YObj × Str :=
  match matchFM content with
  | none => ([], content)
  | some (fm, body) => (parseYaml fm, body)

/-! ## Navigation generation (`mdc-components.ts`, `useNavigation.ts`)

`generateNavigation` extracts the numerically prefixed top-level directories,
sorts them by numeric prefix with JavaScript's stable `Array.prototype.sort`
(the comparator returns the difference of the extracted numbers, so equal
keys keep their first-discovery order), and builds one item per section with
`processSection`. -/

/-- Splits `digits.rest` at the first dot of a `^\d+\.` shaped string:
`some (digits, rest)` when the string starts with zero or more digits
followed by a dot, `none` otherwise. -/
def numOrdSplit : Str → Option (Str × Str)
  | [] => none
  | c :: r =>
    if c == '.' then some ([], r)
    else if c.isDigit then (numOrdSplit r).map (fun q => (c :: q.1, q.2))
    else none

/-- The digits captured by `name.match(/^(\d+)\./)`, `none` when the name has
no numeric ordering prefix. -/
def ordDigits (nm : Str) : Option Str :=
  match numOrdSplit nm with
  | some (d, _) => if d.isEmpty then none else some d
  | none => none

/-- `name.replace(/^\d+\./, '')`: the name with one numeric ordering prefix
stripped. -/
def cleanName (nm : Str) : Str :=
  match numOrdSplit nm with
  | some (d, r) => if d.isEmpty then nm else r
  | none => nm

/-- The sort key of `sortByNumericPrefix` and of the section sort:
`parseInt((name.match(/^(\d+)\./) || ['0','0'])[1])` — the numeric prefix,
defaulting to 0 when absent. -/
def ordOf (nm : Str) : Nat :=
  match ordDigits nm with
  | some d => natDigits d
  | none => 0

/-- The `order` field of `useNavigation.ts`'s content-file navigation
builder: the numeric prefix, defaulting to 999 when absent. -/
def navOrderOf (nm : Str) : Nat :=
  match ordDigits nm with
  | some d => natDigits d
  | none => 999

/-- `path.split('/').pop() || ''`. -/
def lastSeg (p : Str) : Str := ((splitOnChar '/' p).getLast?).getD []

/-- The key compared by `sortByNumericPrefix`: numeric prefix of the path's
last segment. -/
def sortKeyOf (p : Str) : Nat := ordOf (lastSeg p)

/-- The comparator `sortByNumericPrefix` itself (`numA - numB` as a
JavaScript number). -/
def sortByNumericCmp (a b : Str) : Int :=
  (sortKeyOf a : Int) - (sortKeyOf b : Int)

/-- Insertion step of the stable sort: the new element goes before the first
element with a strictly larger key, after earlier elements with equal keys. -/
def insertByKey (k : α → Nat) (x : α) : List α → List α
  | [] => [x]
  | y :: ys => if k y < k x then y :: insertByKey k x ys else x :: y :: ys

/-- Stable sort by a numeric key, modelling `Array.prototype.sort` with the
`numA - numB` comparator (specified stable since ES2019). -/
def stableSortByKey (k : α → Nat) : List α → List α
  | [] => []
  | x :: xs => insertByKey k x (stableSortByKey k xs)

/-- `str.dropSuffix ".md"`, i.e. `replace(/\.md$/, '')`. -/
def dropMd (t : Str) : Str :=
  if (lit ".md").isSuffixOf t then t.take (t.length - 3) else t

/-- The global dash replacement of `formatTitle`: every `-` becomes a
space. -/
def replaceDash (t : Str) : Str := t.map (fun c => if c == '-' then ' ' else c)

/-- A regex word character (`\w`). -/
def isWordChar (c : Char) : Bool := c.isAlphanum || c == '_'

/-- `replace(/\b\w/g, toUpperCase)`: uppercase every word character preceded
by a non-word character or the start; the flag carries whether the previous
character was a word character. -/
def upWords : Bool → Str → Str
  | _, [] => []
  | pw, c :: rest =>
    (if isWordChar c && !pw then c.toUpper else c) :: upWords (isWordChar c) rest

/-- Model of `formatTitle`. -/
def formatTitle (slug : Str) : Str := upWords false (replaceDash slug)

/-- JavaScript `a || b` on possibly-absent values: the left value when
present and truthy, otherwise the right operand as is. -/
def jsOr (a b : Option YVal) : Option YVal :=
  match a with
  | some v => if truthy v then some v else b
  | none => b

/-- `data.title || formatTitle(name)`: the metadata title when truthy, else
the humanized name. -/
def jsOrTitle (a : Option YVal) (fallback : Str) : YVal :=
  match a with
  | some v => if truthy v then v else YVal.str fallback
  | none => YVal.str fallback

/-- A navigation item as built by `generateNavigation` / `processSection`:
absent object properties are `none`. -/
structure NavItem where
  title : YVal
  path : Str
  icon : Option YVal
  badge : Option YVal
  children : Option (List NavItem)

/-- The capture of `path.match(/^\/src\/content\/(\d+\.[^/]+)\//)`: the
numerically prefixed top-level directory name, `none` when the path is not of
that shape. -/
def sectionOf (path : Str) : Option Str :=
  if (lit "/src/content/").isPrefixOf path then
    let rest := path.drop 13
    let seg := rest.takeWhile (· != '/')
    let d := seg.takeWhile Char.isDigit
    if (rest.drop seg.length).head? == some '/' && !d.isEmpty &&
        (seg.drop d.length).head? == some '.' && d.length + 1 < seg.length then
      some seg
    else none
  else none

/-- `Array.from(new Set(...))`: deduplication keeping first occurrences. -/
def dedupAcc (seen : List Str) : List Str → List Str
  | [] => []
  | x :: xs =>
    if seen.contains x then dedupAcc seen xs
    else x :: dedupAcc (x :: seen) xs

/-- First-occurrence deduplication of a list of names. -/
def dedupFirst (l : List Str) : List Str := dedupAcc [] l

/-- The ordered section list of `generateNavigation`: distinct top-level
numerically prefixed directory names, stably sorted by numeric prefix. -/
def sectionsOf (store : Store) : List Str :=
  stableSortByKey ordOf (dedupFirst ((store.map (·.1)).filterMap sectionOf))

/-- Appends a file to its directory's bucket, creating the bucket at the end
on first sight (JavaScript object insertion order for non-integer keys). -/
def addToDir (fbd : List (Str × List Str)) (d f : Str) : List (Str × List Str) :=
  match fbd with
  | [] => [(d, [f])]
  | (k, fs) :: rest =>
    if k == d then (k, fs ++ [f]) :: rest else (k, fs) :: addToDir rest d f

/-- The grouping loop of `processSection`: files by subdirectory name (in
first-occurrence order) and top-level files (in enumeration order). -/
def groupFiles (plen : Nat) (files : List Str) : List (Str × List Str) × List Str :=
  files.foldl
    (fun acc p =>
      let rel := p.drop plen
      if rel.contains '/' then (addToDir acc.1 (rel.takeWhile (· != '/')) p, acc.2)
      else (acc.1, acc.2 ++ [p]))
    ([], [])

/-- The bucket of a directory name. -/
def getGroup (fbd : List (Str × List Str)) (d : Str) : List Str :=
  ((fbd.find? (fun q => q.1 == d)).map (·.2)).getD []

/-- A leaf item for a content file: front matter supplies title/icon/badge,
the public path joins the base path with the cleaned file name. -/
def mkFileItem (store : Store) (basePath fp : Str) : NavItem :=
  let content := (lookup store fp).getD []
  let data := (parseFrontmatter content).1
  let fileName := dropMd (cleanName (lastSeg fp))
  { title := jsOrTitle (getKey data (lit "title")) (formatTitle fileName)
    path := basePath ++ '/' :: fileName
    icon := getNested data (lit "navigation") (lit "icon")
    badge := getNested data (lit "navigation") (lit "badge")
    children := none }

/-- Model of `processDirFiles`: non-index files of a subdirectory, sorted by
numeric prefix, as leaf items under the given base path. -/
def processDirFiles (store : Store) (filePaths : List Str) (basePath : Str) : List NavItem :=
  (stableSortByKey sortKeyOf
      (filePaths.filter
        (fun p => !(lit "index.md").isSuffixOf p && !(lit "1.index.md").isSuffixOf p))).map
    (mkFileItem store basePath)

/-- A subdirectory's item within a section: metadata from the directory's
index file when one survives the section filter, children from
`processDirFiles`. -/
def mkDirItem (store : Store) (sectionBaseName : Str) (fbd : List (Str × List Str))
    (dn : Str) : NavItem :=
  let cleanDir := cleanName dn
  let dirFiles := getGroup fbd dn
  let indexFile :=
    dirFiles.find? (fun f => (lit "/index.md").isSuffixOf f || (lit "/1.index.md").isSuffixOf f)
  let dirMeta :=
    match indexFile with
    | some f => (parseFrontmatter ((lookup store f).getD [])).1
    | none => []
  { title := jsOrTitle (getKey dirMeta (lit "title")) (formatTitle cleanDir)
    path := '/' :: sectionBaseName ++ '/' :: cleanDir
    icon := getNested dirMeta (lit "navigation") (lit "icon")
    badge := none
    children := some (processDirFiles store dirFiles ('/' :: sectionBaseName ++ '/' :: cleanDir)) }

/-- Model of `processSection`: top-level non-index files of the section
(sorted by numeric prefix) followed by its subdirectories (likewise
sorted). -/
def processSection (store : Store) (sect sectionBaseName : Str) : List NavItem :=
  let pref := lit "/src/content/" ++ sect ++ ['/']
  let sectionFiles :=
    (store.map (·.1)).filter
      (fun p => pref.isPrefixOf p && !(lit "/1.index.md").isSuffixOf p)
  let grouped := groupFiles pref.length sectionFiles
  let fileItems :=
    (stableSortByKey sortKeyOf
        (grouped.2.filter (fun p => !(lit "index.md").isSuffixOf p))).map
      (mkFileItem store ('/' :: sectionBaseName))
  let dirItems :=
    (stableSortByKey sortKeyOf (grouped.1.map (·.1))).map
      (mkDirItem store sectionBaseName grouped.1)
  fileItems ++ dirItems

/-- Model of `generateNavigation`: one item per sorted section, title/icon
from the section's `1.index.md` front matter (or the `.navigation.yml` store)
with a humanized fallback, children from `processSection`. -/
def generateNavigation (store navStore : Store) : List NavItem :=
  (sectionsOf store).map fun sect =>
    let sectionName := cleanName sect
    let sectionMeta :=
      match lookup store (lit "/src/content/" ++ sect ++ lit "/1.index.md") with
      | some c => if c.isEmpty then [] else (parseFrontmatter c).1
      | none => []
    let navConfig :=
      match lookup navStore (lit "/src/content/" ++ sect ++ lit "/.navigation.yml") with
      | some y => if y.isEmpty then [] else parseYaml y
      | none => []
    { title := jsOrTitle (getKey sectionMeta (lit "title")) (formatTitle sectionName)
      path := '/' :: sectionName
      icon := jsOr (getNested sectionMeta (lit "navigation") (lit "icon"))
          (getKey navConfig (lit "icon"))
      badge := none
      children := some (processSection store sect sectionName) }

/-! ## The spec's public path of a stored document

The claims quantify over "the public route path computed for d": the stored
path with the `/src/content` root removed, each segment's numeric ordering
prefix stripped, the `.md` extension dropped, and a directory index file
collapsing to its directory's path.  This definition follows those words; it
is the spec-side counterpart the resolver is measured against. -/

/-- Joins segments with `/` (inverse of `splitOnChar` for slash-free
segments). -/
def joinSegs : List Str → Str
  | [] => []
  | [x] => x
  | x :: rest => x ++ '/' :: joinSegs rest

/-- Collapse of the final segment: drop the `.md` extension and let an
`index` file stand for its directory. -/
def collapseIndex (cleaned : List Str) : List Str :=
  match cleaned.getLast? with
  | none => []
  | some last =>
    if dropMd last = lit "index" then cleaned.dropLast
    else cleaned.dropLast ++ [dropMd last]

/-- Public route path of a stored document, from the claim's description. -/
def publicPathOf (storedPath : Str) : Str :=
  '/' :: joinSegs (collapseIndex ((splitOnChar '/'
    (if (lit "/src/content/").isPrefixOf storedPath then storedPath.drop 13
     else storedPath)).map cleanName))

/-- The part of a stored path below the content root, built from numerically
prefixed directory segments `(digits, name)` and a final file segment
`digits.name.md`. -/
def relStored : List (Str × Str) → Str → Str → Str
  | [], fd, fn => fd ++ '.' :: (fn ++ lit ".md")
  | p :: rest, fd, fn => p.1 ++ '.' :: (p.2 ++ '/' :: relStored rest fd fn)

/-- A stored path of the regular shape: the content root followed by
`relStored`. -/
def mkStored (dirs : List (Str × Str)) (fd fn : Str) : Str :=
  lit "/src/content/" ++ relStored dirs fd fn

/-! ## Concrete evaluations of the claims -/

/-- C1 (counterexample): the round trip fails on a directory index document
nested two levels below the content root.  Its computed public path `/a/b`
resolves to nothing, because the multi-segment pattern only accepts a final
segment of the flat-file shape `\d+.<segment>.md`, never a nested directory's
index file. -/
theorem roundtrip_fails_on_nested_index :
    publicPathOf (lit "/src/content/1.a/2.b/1.index.md") = lit "/a/b" ∧
      findOne [(lit "/src/content/1.a/2.b/1.index.md", lit "hello")] (lit "/a/b") = none :=
  ⟨rfl, rfl⟩

/-- C2 (counterexample): a route path that is the public path of no stored
document can still resolve to a document, because an unescaped `.` in the
route segment is interpolated into the pattern as a regex wildcard: `/f.o`
matches the stored `1.foo.md` even though that document's public path is
`/foo`. -/
theorem wildcard_dot_resolves_unrelated :
    (∀ q ∈ [(lit "/src/content/1.foo.md", lit "F")], publicPathOf q.1 ≠ lit "/f.o") ∧
      findOne [(lit "/src/content/1.foo.md", lit "F")] (lit "/f.o") = some (lit "F") :=
  ⟨by decide, rfl⟩

/-- C3 (code evaluated at the failing input): with only the nested directory
index `/src/content/1.guide/2.advanced/1.index.md` stored, the route
`/guide/advanced` resolves to `none`, although the code's own comment says
the final segment "can be index.md or named.md". -/
theorem nested_index_route_returns_none :
    findOne [(lit "/src/content/1.guide/2.advanced/1.index.md", lit "X")]
        (lit "/guide/advanced") = none :=
  rfl

/-- C4 (counterexample): when the store enumerates the flat document
`1.start.md` before the directory index `1.start/1.index.md`, resolving
`/start` returns the flat document, not the directory index — precedence is
enumeration order, not directory-index-first. -/
theorem flat_file_wins_when_enumerated_first :
    findOne [(lit "/src/content/1.start.md", lit "FLAT"),
        (lit "/src/content/1.start/1.index.md", lit "INDEX")] (lit "/start") =
      some (lit "FLAT") ∧
    lookup [(lit "/src/content/1.start.md", lit "FLAT"),
        (lit "/src/content/1.start/1.index.md", lit "INDEX")]
        (lit "/src/content/1.start/1.index.md") = some (lit "INDEX") ∧
    lit "FLAT" ≠ lit "INDEX" :=
  ⟨rfl, rfl, by decide⟩

/-- C5 (counterexample): the indented line `  icon: x` after the top-level
key `a` introduces `icon` as a NEW top-level key (the key is trimmed before
the indentation test, so the nested-key branch never fires), and `a` keeps
its scalar value instead of gaining a nested field. -/
theorem indented_key_becomes_top_level :
    parseYaml (lit "a: 1\n  icon: x") =
      [(lit "a", YVal.int 1), (lit "icon", YVal.str (lit "x"))] :=
  rfl

/-- C6 (counterexample): on a document with two consecutive front-matter
blocks the body returned by the first parse starts with the second block, so
parsing the body again strips it — the metadata of the second pass is not
empty and its body differs from the input body. -/
theorem frontmatter_reparse_not_idempotent :
    (parseFrontmatter (lit "---\na: 1\n---\n---\nb: 2\n---\nx")).2 =
        lit "---\nb: 2\n---\nx" ∧
      parseFrontmatter (lit "---\nb: 2\n---\nx") = ([(lit "b", YVal.int 2)], lit "x") ∧
      (parseFrontmatter ((parseFrontmatter (lit "---\na: 1\n---\n---\nb: 2\n---\nx")).2)).2 ≠
        (parseFrontmatter (lit "---\na: 1\n---\n---\nb: 2\n---\nx")).2 :=
  ⟨rfl, rfl, by decide⟩

/-- C7 (counterexample): two sections with the same numeric prefix keep the
store's enumeration order — `2.tutorials` enumerated first stays first, the
output is not in lexical order of the raw names. -/
theorem tie_break_is_enumeration_order :
    (generateNavigation [(lit "/src/content/2.tutorials/1.index.md", lit "x"),
          (lit "/src/content/2.guides/1.index.md", lit "y")] []).map (·.path) =
        [lit "/tutorials", lit "/guides"] ∧
      (generateNavigation [(lit "/src/content/2.tutorials/1.index.md", lit "x"),
          (lit "/src/content/2.guides/1.index.md", lit "y")] []).map (·.path) ≠
        [lit "/guides", lit "/tutorials"] :=
  ⟨rfl, by decide⟩

/-- C8 (counterexample): within a section, the file `about.md` without a
numeric prefix receives sort key 0 and is emitted BEFORE the prefixed
`1.intro.md`, not after it. -/
theorem unprefixed_file_sorts_first_in_nav :
    (processSection [(lit "/src/content/1.sec/1.index.md", lit "x"),
          (lit "/src/content/1.sec/about.md", lit "a"),
          (lit "/src/content/1.sec/1.intro.md", lit "b")] (lit "1.sec") (lit "sec")).map
        (·.path) =
      [lit "/sec/about", lit "/sec/intro"] ∧
    [lit "/sec/about", lit "/sec/intro"] ≠ [lit "/sec/intro", lit "/sec/about"] :=
  ⟨rfl, by decide⟩

/-- C9: the two-document scenario — `1.start/1.index.md` with front matter
`title: Introduction` and `2.setup.md` without front matter — builds exactly
one top-level item titled "Introduction" at `/start` with the single child
"Setup" at `/start/setup`. -/
theorem generateNavigation_scenario :
    generateNavigation
        [(lit "/src/content/1.start/1.index.md", lit "---\ntitle: Introduction\n---\n# Intro\n"),
          (lit "/src/content/1.start/2.setup.md", lit "# Setup\n")] [] =
      [⟨YVal.str (lit "Introduction"), lit "/start", none, none,
          some [⟨YVal.str (lit "Setup"), lit "/start/setup", none, none, none⟩]⟩] :=
  rfl

/-- C10: the resolver's patterns are anchored only at the end of the stored
path, so the two-segment route `/core/routing` resolves to a document three
segments below the content root whose public path is `/other/core/routing`. -/
theorem resolver_matches_trailing_segments :
    findOne [(lit "/src/content/9.other/2.core/1.routing.md", lit "R")]
        (lit "/core/routing") = some (lit "R") ∧
      (routeSegsOf (lit "/core/routing")).length = 2 ∧
      (splitOnChar '/' ((lit "/src/content/9.other/2.core/1.routing.md").drop 13)).length = 3 ∧
      publicPathOf (lit "/src/content/9.other/2.core/1.routing.md") =
        lit "/other/core/routing" :=
  ⟨rfl, rfl, rfl, rfl⟩

/-! ## Null resolution (C2) -/

/-- The candidate loop returns `none` exactly when every candidate's stored
content is falsy (absent or empty). -/
theorem firstTruthy_none_iff (store : Store) (l : List Str) :
    firstTruthy store l = none ↔ ∀ c ∈ l, (lookup store c).getD [] = [] := by
  induction l with
  | nil => simp [firstTruthy]
  | cons p rest ih =>
    simp only [firstTruthy]
    cases h : lookup store p with
    | none => simp [h, ih]
    | some txt =>
      by_cases he : txt.isEmpty
      · have : txt = [] := by simpa [List.isEmpty_iff] using he
        subst this
        simp [he, h, ih]
      · have : txt ≠ [] := by simpa [List.isEmpty_iff] using he
        simp [he, h, this]

/-- C2 (amended): resolution returns `null` exactly when no candidate stored
path has truthy content; the model is a total function, so within the
modelled character range (alphanumerics, `-`, `_`, `.` and `/` in the route)
no exception arises.  For arbitrary strings the original claim fails: an
unescaped `.` in a segment is a regex wildcard (see
`wildcard_dot_resolves_unrelated`). -/
theorem findOne_none_iff_no_truthy_candidate (store : Store) (p : Str) :
    findOne store p = none ↔
      ∀ c ∈ routeToContentPath store p, (lookup store c).getD [] = [] :=
  firstTruthy_none_iff store (routeToContentPath store p)

/-! ## Front-matter reparse (C6) -/

/-- `stripNL` consumes at least one character. -/
theorem stripNL_shrink {s r : Str} (h : stripNL s = some r) : r.length < s.length := by
  unfold stripNL at h
  split at h
  · injection h with h'
    subst h'
    simp only [List.length_cons]
    omega
  · injection h with h'
    subst h'
    simp only [List.length_cons]
    omega
  · exact absurd h (by simp)

/-- `tryClose` consumes at least one character. -/
theorem tryClose_shrink {s b : Str} (h : tryClose s = some b) : b.length < s.length := by
  unfold tryClose at h
  cases hs : stripNL s with
  | none => rw [hs] at h; simp at h
  | some u1 =>
    rw [hs] at h
    rw [Option.some_bind'] at h
    have h1 := stripNL_shrink hs
    split at h
    · next u2 =>
      have h2 := stripNL_shrink h
      simp_all
      omega
    · exact absurd h (by simp)

/-- The lazy close scan returns a strictly shorter body. -/
theorem scanClose_shrink {u fm body : Str} (h : scanClose u = some (fm, body)) :
    body.length < u.length := by
  induction u generalizing fm with
  | nil => simp [scanClose] at h
  | cons c rest ih =>
    simp only [scanClose] at h
    cases ht : tryClose rest with
    | some b =>
      rw [ht] at h
      injection h with h'
      have := tryClose_shrink ht
      cases h'
      simp
      omega
    | none =>
      rw [ht] at h
      cases hr : scanClose rest with
      | none => rw [hr] at h; simp at h
      | some q =>
        rw [hr] at h
        obtain ⟨fm', body'⟩ := q
        simp at h
        obtain ⟨h1, h2⟩ := h
        subst h2
        have := ih hr
        simp
        omega

/-- A recognised front-matter block leaves a strictly shorter body. -/
theorem matchFM_shrink {t fm body : Str} (h : matchFM t = some (fm, body)) :
    body.length < t.length := by
  unfold matchFM at h
  split at h
  · next t1 =>
    cases hs : stripNL t1 with
    | none => rw [hs] at h; simp at h
    | some u =>
      rw [hs] at h
      rw [Option.some_bind'] at h
      have h1 := stripNL_shrink hs
      have h2 := scanClose_shrink h
      simp
      omega
  · exact absurd h (by simp)

/-- C6 (amended): a parse pass is the identity (empty metadata, unchanged
body) exactly when the text does not begin with a front-matter block.  The
body returned by a first pass can itself begin with a block (consecutive
blocks, see `frontmatter_reparse_not_idempotent`), and exactly then the
second pass strips it again. -/
theorem parseFrontmatter_identity_iff (b : Str) :
    parseFrontmatter b = ([], b) ↔ matchFM b = none := by
  constructor
  · intro h
    cases hm : matchFM b with
    | none => rfl
    | some q =>
      obtain ⟨fm, body⟩ := q
      have hlt := matchFM_shrink hm
      unfold parseFrontmatter at h
      rw [hm] at h
      have hb : body = b := congrArg Prod.snd h
      rw [hb] at hlt
      exact absurd hlt (lt_irrefl _)
  · intro h
    unfold parseFrontmatter
    rw [h]

/-! ## Sibling ordering (C7, C8) -/

/-- Membership in the stable-insert step. -/
theorem mem_insertByKey {k : α → Nat} {x y : α} {l : List α} :
    y ∈ insertByKey k x l ↔ y = x ∨ y ∈ l := by
  induction l with
  | nil => simp [insertByKey]
  | cons z zs ih =>
    simp only [insertByKey]
    split
    · simp only [List.mem_cons, ih]
      try tauto
    · simp only [List.mem_cons]
      try tauto

/-- Stable insertion preserves sortedness by the key. -/
theorem pairwise_insertByKey {k : α → Nat} {x : α} {l : List α}
    (h : l.Pairwise (fun a b => k a ≤ k b)) :
    (insertByKey k x l).Pairwise (fun a b => k a ≤ k b) := by
  induction l with
  | nil => simp [insertByKey]
  | cons z zs ih =>
    rw [List.pairwise_cons] at h
    obtain ⟨hz, hzs⟩ := h
    simp only [insertByKey]
    split
    · next hlt =>
      rw [List.pairwise_cons]
      refine ⟨?_, ih hzs⟩
      intro y hy
      rcases mem_insertByKey.mp hy with rfl | hy'
      · exact Nat.le_of_lt hlt
      · exact hz y hy'
    · next hge =>
      rw [List.pairwise_cons]
      refine ⟨?_, List.pairwise_cons.mpr ⟨hz, hzs⟩⟩
      intro y hy
      rcases List.mem_cons.mp hy with rfl | hy'
      · omega
      · exact Nat.le_trans (by omega) (hz y hy')

/-- The stable sort produces a non-decreasing key sequence. -/
theorem pairwise_stableSortByKey (k : α → Nat) (l : List α) :
    (stableSortByKey k l).Pairwise (fun a b => k a ≤ k b) := by
  induction l with
  | nil => simp [stableSortByKey]
  | cons x xs ih => exact pairwise_insertByKey ih

/-- C7 (amended): for every content store, the section list driving the
top-level navigation items is non-decreasing in the numeric ordering prefix
of the raw section names; siblings sharing a prefix keep the store's
enumeration (first-discovery) order, not lexical order (see
`tie_break_is_enumeration_order`), and within children lists files precede
subdirectories. -/
theorem sectionsOf_sorted_by_numeric_ord (store : Store) :
    (sectionsOf store).Pairwise (fun a b => ordOf a ≤ ordOf b) :=
  pairwise_stableSortByKey ordOf _

/-- C8 (amended): in `sortByNumericPrefix` (the navigation generator's
comparator) a name without a numeric ordering prefix gets order 0 and sorts
BEFORE any sibling with a positive numeric prefix; only the content-file
navigation builder of `useNavigation.ts` defaults the `order` field to the
sentinel 999. -/
theorem unprefixed_name_defaults (a b nm : Str)
    (ha : ordDigits (lastSeg a) = none) (hb : 1 ≤ sortKeyOf b)
    (hnm : ordDigits nm = none) :
    sortByNumericCmp a b < 0 ∧ navOrderOf nm = 999 := by
  constructor
  · have hz : sortKeyOf a = 0 := by
      unfold sortKeyOf ordOf
      rw [ha]
    unfold sortByNumericCmp
    rw [hz]
    omega
  · unfold navOrderOf
    rw [hnm]

/-- Witness for `unprefixed_name_defaults` at `about.md` versus
`1.intro.md`. -/
theorem unprefixed_name_defaults_witness :
    sortByNumericCmp (lit "about.md") (lit "1.intro.md") < 0 ∧
      navOrderOf (lit "about") = 999 :=
  unprefixed_name_defaults (lit "about.md") (lit "1.intro.md") (lit "about")
    (by decide) (by decide) (by decide)

/-! ## Indented front-matter lines (C5) -/

/-- A key string whose first character is neither whitespace nor the comment
mark. -/
def headOk (k : Str) : Bool :=
  match k with
  | [] => false
  | c :: _ => !jsSpace c && c != '#'

/-- A key string whose last character is not whitespace. -/
def lastOk (k : Str) : Bool :=
  match k.getLast? with
  | some c => !jsSpace c
  | none => false

/-- Dropping whitespace skips a fully-whitespace block. -/
theorem dropWhile_append_all {ws : Str} (r : Str) (h : ws.all jsSpace = true) :
    (ws ++ r).dropWhile jsSpace = r.dropWhile jsSpace := by
  induction ws with
  | nil => rfl
  | cons c cs ih =>
    rw [List.all_cons, Bool.and_eq_true] at h
    simp [List.dropWhile_cons, h.1, ih h.2]

/-- Dropping whitespace stops at a non-whitespace head. -/
theorem dropWhile_cons_neg {c : Char} {r : Str} (h : jsSpace c = false) :
    (c :: r).dropWhile jsSpace = c :: r := by
  simp [List.dropWhile_cons, h]

/-- A trailing non-whitespace character survives a whitespace scan. -/
theorem dropWhile_concat_last {a : Char} (h : jsSpace a = false) (l : Str) :
    ∃ m, (l ++ [a]).dropWhile jsSpace = m ++ [a] := by
  induction l with
  | nil => exact ⟨[], by simp [List.dropWhile_cons, h]⟩
  | cons c cs ih =>
    by_cases hc : jsSpace c
    · obtain ⟨m, hm⟩ := ih
      exact ⟨m, by simp [List.dropWhile_cons, hc, hm]⟩
    · exact ⟨c :: cs, by simp [List.dropWhile_cons, hc]⟩

/-- Right trim keeps a non-whitespace head. -/
theorem trimRight_cons {kh : Char} (rest : Str) (h : jsSpace kh = false) :
    ∃ m, trimRight (kh :: rest) = kh :: m := by
  unfold trimRight
  obtain ⟨m, hm⟩ := dropWhile_concat_last h rest.reverse
  refine ⟨m.reverse, ?_⟩
  rw [List.reverse_cons, hm, List.reverse_append]
  rfl

/-- Right trim is the identity when the last character is not whitespace. -/
theorem trimRight_self {k : Str} (h : lastOk k = true) : trimRight k = k := by
  unfold lastOk at h
  cases hg : k.getLast? with
  | none => rw [hg] at h; simp at h
  | some c =>
    rw [hg] at h
    have hc : jsSpace c = false := by simpa using h
    have hh : k.reverse.head? = some c := by rw [List.head?_reverse]; exact hg
    unfold trimRight
    cases hr : k.reverse with
    | nil => rw [hr] at hh; simp at hh
    | cons x t =>
      rw [hr] at hh
      injection hh with hx
      subst hx
      rw [dropWhile_cons_neg hc, ← hr, List.reverse_reverse]

/-- Whitespace is never the colon. -/
theorem jsSpace_ne_colon {c : Char} (h : jsSpace c = true) : (c != ':') = true := by
  cases hq : c == ':'
  · simp [bne, hq]
  · have hc : c = ':' := eq_of_beq hq
    subst hc
    exact absurd h (by decide)

/-- A fully-whitespace block contains no colon. -/
theorem all_space_ne_colon {ws : Str} (h : ws.all jsSpace = true) :
    ws.all (· != ':') = true := by
  induction ws with
  | nil => rfl
  | cons c cs ih =>
    rw [List.all_cons, Bool.and_eq_true] at h ⊢
    exact ⟨jsSpace_ne_colon h.1, ih h.2⟩

/-- `indexOf ':'` on a colon-free block followed by a colon. -/
theorem idxOfColon_append {l : Str} (r : Str) (hl : l.all (· != ':') = true) :
    idxOfColon (l ++ ':' :: r) = some l.length := by
  induction l with
  | nil => rfl
  | cons c cs ih =>
    rw [List.all_cons, Bool.and_eq_true] at hl
    have hc : (c == ':') = false := by
      have := hl.1
      simp [bne] at this
      simp [this]
    simp [idxOfColon, hc, ih hl.2]

/-- Drop past a marker character at a known offset. -/
theorem drop_len_succ (l : Str) (c : Char) (r : Str) :
    (l ++ c :: r).drop (l.length + 1) = r := by
  induction l with
  | nil => rfl
  | cons a as ih =>
    simp [List.drop, ih]

/-- C5 (amended): a line whose key part carries leading whitespace is decoded
exactly like the unindented line — the whitespace is trimmed away before the
indentation test, so the (dead) nested-key branch never fires and the line
sets its key at the TOP level of the metadata object. -/
theorem indented_line_sets_top_level_key (data : YObj) (ws k v : Str)
    (hws : ws.all jsSpace = true)
    (hh : headOk k = true) (hl : lastOk k = true)
    (hc : k.all (· != ':') = true) (hd : k.contains '.' = false) :
    processYamlLine data (ws ++ k ++ ':' :: v) = setKey data k (parseValue (jsTrim v)) := by
  obtain ⟨kh, kt, rfl⟩ : ∃ kh kt, k = kh :: kt := by
    cases k with
    | nil => simp [headOk] at hh
    | cons a b => exact ⟨a, b, rfl⟩
  have hkh : jsSpace kh = false ∧ (kh == '#') = false := by
    unfold headOk at hh
    rw [Bool.and_eq_true] at hh
    constructor
    · simpa using hh.1
    · simpa [bne] using hh.2
  -- the trimmed line: nonempty, not a comment
  have htl : trimLeft ((ws ++ (kh :: kt)) ++ ':' :: v) = kh :: (kt ++ ':' :: v) := by
    unfold trimLeft
    rw [List.append_assoc]
    rw [dropWhile_append_all (((kh :: kt)) ++ ':' :: v) hws]
    exact dropWhile_cons_neg hkh.1
  obtain ⟨m, hm⟩ := trimRight_cons (kt ++ ':' :: v) hkh.1
  have hts : jsTrim ((ws ++ (kh :: kt)) ++ ':' :: v) = kh :: m := by
    unfold jsTrim
    rw [htl]
    exact hm
  -- the colon index
  have hcall : (ws ++ (kh :: kt)).all (· != ':') = true := by
    rw [List.all_append, Bool.and_eq_true]
    exact ⟨all_space_ne_colon hws, hc⟩
  have hidx : idxOfColon ((ws ++ (kh :: kt)) ++ ':' :: v) =
      some (ws ++ (kh :: kt)).length := idxOfColon_append v hcall
  -- the key and value substrings
  have htake : ((ws ++ (kh :: kt)) ++ ':' :: v).take (ws ++ (kh :: kt)).length =
      ws ++ (kh :: kt) := List.take_left _ _
  have hdrop : ((ws ++ (kh :: kt)) ++ ':' :: v).drop ((ws ++ (kh :: kt)).length + 1) = v :=
    drop_len_succ _ ':' v
  have hkey : jsTrim (ws ++ (kh :: kt)) = kh :: kt := by
    unfold jsTrim trimLeft
    rw [dropWhile_append_all (kh :: kt) hws, dropWhile_cons_neg hkh.1]
    exact trimRight_self hl
  -- the indentation test fails
  have hind : isIndentKey (kh :: kt) = false := by
    have h1 : (' ' == kh) = false := by
      cases hq : ' ' == kh
      · rfl
      · have : (' ' : Char) = kh := eq_of_beq hq
        rw [← this] at hkh
        exact absurd hkh.1 (by decide)
    have h2 : ('\t' == kh) = false := by
      cases hq : '\t' == kh
      · rfl
      · have : ('\t' : Char) = kh := eq_of_beq hq
        rw [← this] at hkh
        exact absurd hkh.1 (by decide)
    simp [isIndentKey, lit, List.isPrefixOf, h1, h2]
  -- assemble
  unfold processYamlLine
  rw [hts, hidx]
  simp only [List.isEmpty_cons, List.head?_cons, Bool.false_or]
  rw [show (some kh == some '#') = false by simp [hkh.2]]
  simp only [Bool.or_false, if_neg (by simp : ¬ (false : Bool) = true)]
  rw [htake, hdrop, hkey]
  simp only [List.isEmpty_cons, if_neg (by simp : ¬ (false : Bool) = true)]
  rw [hind, hd]
  simp

/-- Witness for `indented_line_sets_top_level_key`: the indented line
`  icon: x` sets the top-level key `icon`. -/
theorem indented_line_sets_top_level_key_witness :
    processYamlLine [] (lit "  " ++ lit "icon" ++ ':' :: lit " x") =
      setKey [] (lit "icon") (parseValue (jsTrim (lit " x"))) :=
  indented_line_sets_top_level_key [] (lit "  ") (lit "icon") (lit " x")
    (by decide) (by decide) (by decide) (by decide) (by decide)

/-! ## Single-segment resolution order (C4) -/

/-- Splitting a string free of the separator is the identity. -/
theorem splitOnChar_eq_singleton {c : Char} {s : Str} (h : s.all (· != c) = true) :
    splitOnChar c s = [s] := by
  induction s with
  | nil => rfl
  | cons x xs ih =>
    rw [List.all_cons, Bool.and_eq_true] at h
    have hx : (x == c) = false := by
      have := h.1
      simp [bne] at this
      simp [this]
    rw [splitOnChar, if_neg (by simp [hx]), ih h.2]

/-- The candidate loop ignores a store entry none of the candidates name. -/
theorem firstTruthy_skip {rest : Store} {k t : Str} {cands : List Str}
    (h : ∀ c ∈ cands, c ≠ k) :
    firstTruthy ((k, t) :: rest) cands = firstTruthy rest cands := by
  induction cands with
  | nil => rfl
  | cons c cs ih =>
    have hck : c ≠ k := h c (List.mem_cons_self c cs)
    have hl : lookup ((k, t) :: rest) c = lookup rest c := by
      unfold lookup
      rw [List.find?_cons_of_neg _ (by simp [Ne.symm hck])]
    simp only [firstTruthy, hl]
    cases lookup rest c with
    | none => exact ih (fun c' hc' => h c' (List.mem_cons_of_mem _ hc'))
    | some txt =>
      by_cases he : txt.isEmpty
      · simp only [he, if_pos rfl]
        exact ih (fun c' hc' => h c' (List.mem_cons_of_mem _ hc'))
      · simp [he]

/-- With distinct keys, walking the filtered key list and looking each key up
again equals scanning the filtered store for the first truthy entry. -/
theorem firstTruthy_filter (store : Store) (pred : Str → Bool)
    (hnd : (store.map (·.1)).Nodup) :
    firstTruthy store ((store.map (·.1)).filter pred) =
      ((store.filter (fun q => pred q.1)).find? (fun q => !q.2.isEmpty)).map (·.2) := by
  induction store with
  | nil => rfl
  | cons q rest ih =>
    obtain ⟨k, t⟩ := q
    rw [List.map_cons, List.nodup_cons] at hnd
    obtain ⟨hk, hnd'⟩ := hnd
    have hsub : ∀ c ∈ (rest.map (·.1)).filter pred, c ≠ k := by
      intro c hcmem
      have := List.mem_of_mem_filter hcmem
      intro hck
      exact hk (hck ▸ this)
    by_cases hp : pred k
    · have hfil : (((k, t) :: rest).map (·.1)).filter pred =
          k :: (rest.map (·.1)).filter pred := by
        rw [List.map_cons, List.filter_cons, if_pos (by simp [hp])]
      rw [hfil]
      have hlk : lookup ((k, t) :: rest) k = some t := by
        unfold lookup
        rw [List.find?_cons_of_pos _ (by simp)]
        rfl
      simp only [firstTruthy, hlk]
      by_cases he : t.isEmpty
      · rw [if_pos he, firstTruthy_skip hsub, ih hnd']
        rw [List.filter_cons, if_pos (by simp [hp])]
        rw [List.find?_cons_of_neg _ (by simp [List.isEmpty_iff] at he ⊢; simp [he])]
      · rw [if_neg he]
        rw [List.filter_cons, if_pos (by simp [hp])]
        rw [List.find?_cons_of_pos _ (by simp [he])]
        rfl
    · have hfil : (((k, t) :: rest).map (·.1)).filter pred =
          (rest.map (·.1)).filter pred := by
        rw [List.map_cons, List.filter_cons, if_neg (by simp [hp])]
      rw [hfil, firstTruthy_skip hsub, ih hnd']
      rw [List.filter_cons, if_neg (by simp [hp])]

/-- C4 (amended): for a single-segment route over a store with distinct keys,
resolution returns the first stored entry, in key enumeration order, matching
either the directory-index pattern or the flat-file pattern (and having
truthy content) — so when both a directory index and a flat document exist,
whichever enumerates first wins. -/
theorem findOne_single_segment_enum_order (store : Store) (seg : Str)
    (h1 : seg ≠ []) (h2 : seg.all (· != '/') = true)
    (hnd : (store.map (·.1)).Nodup) :
    findOne store ('/' :: seg) =
      ((store.filter (fun q => routeMatches [seg] q.1)).find?
          (fun q => !q.2.isEmpty)).map (·.2) := by
  unfold findOne routeToContentPath
  have hne : ¬('/' :: seg = lit "/" ∨ '/' :: seg = []) := by
    rintro (ha | ha)
    · exact h1 (by injection ha)
    · exact absurd ha (by simp)
  rw [if_neg hne]
  have hsegs : routeSegsOf ('/' :: seg) = [seg] := by
    unfold routeSegsOf
    simp only [List.head?_cons, List.tail_cons, beq_self_eq_true, if_pos rfl]
    exact splitOnChar_eq_singleton h2
  rw [hsegs]
  exact firstTruthy_filter store _ hnd

/-- Witness for `findOne_single_segment_enum_order` on the store of
`flat_file_wins_when_enumerated_first`. -/
theorem findOne_single_segment_enum_order_witness :
    findOne [(lit "/src/content/1.start.md", lit "FLAT"),
        (lit "/src/content/1.start/1.index.md", lit "INDEX")] ('/' :: lit "start") =
      (([(lit "/src/content/1.start.md", lit "FLAT"),
          (lit "/src/content/1.start/1.index.md", lit "INDEX")].filter
            (fun q => routeMatches [lit "start"] q.1)).find?
          (fun q => !q.2.isEmpty)).map (·.2) :=
  findOne_single_segment_enum_order _ (lit "start") (by decide) (by decide) (by decide)

/-! ## Round-trip resolution (C1) -/

/-- Compiled literal pattern text matches itself before a continuation. -/
theorem matchToks_litToks (t : Str) (ts : List RTok) (r : Str) :
    matchToks (litToks t ++ ts) (t ++ r) = matchToks ts r := by
  induction t with
  | nil => rfl
  | cons c cs ih =>
    simp only [litToks, List.map_cons, List.cons_append, matchToks, beq_self_eq_true,
      Bool.true_and]
    exact ih

/-- An interpolated segment matches its own text before a continuation
(a literal character matches itself and the `.` wildcard matches any
character, in particular `.` itself). -/
theorem matchToks_compileSeg (t : Str) {ts : List RTok} {r : Str}
    (h : matchToks ts r = true) : matchToks (compileSeg t ++ ts) (t ++ r) = true := by
  induction t with
  | nil => simpa using h
  | cons c cs ih =>
    cases hc : c == '.' <;>
      simp only [compileSeg, List.map_cons, hc, List.cons_append, matchToks, if_true,
        if_false, beq_self_eq_true, Bool.true_and, Bool.false_eq_true, Bool.true_eq_false] <;>
      exact ih

/-- A nonempty digit run matches the `\d+` token before a continuation. -/
theorem matchToks_digits {ds : Str} (hne : ds ≠ []) (hdig : ∀ c ∈ ds, c.isDigit = true)
    {ts : List RTok} {r : Str} (h : matchToks ts r = true) :
    matchToks (RTok.digits :: ts) (ds ++ r) = true := by
  induction ds with
  | nil => exact absurd rfl hne
  | cons c cs ih =>
    have hc : c.isDigit = true := hdig c (List.mem_cons_self _ _)
    cases cs with
    | nil => simp [matchToks, hc, h]
    | cons c2 cs2 =>
      have hrest : matchToks (RTok.digits :: ts) ((c2 :: cs2) ++ r) = true :=
        ih (by simp) (fun x hx => hdig x (List.mem_cons_of_mem _ hx))
      rw [List.cons_append] at hrest ⊢
      simp [matchToks, hc] at hrest ⊢
      exact Or.inr hrest

/-- A full match of the whole string is an end-anchored search match. -/
theorem searchSuffix_of_match {toks : List RTok} {t : Str} (h : matchToks toks t = true) :
    searchSuffix toks t = true := by
  cases t with
  | nil => simpa [searchSuffix] using h
  | cons x xs => simp [searchSuffix, h]

/-- End-anchored search ignores any prefix before the matching suffix. -/
theorem searchSuffix_append (u : Str) {toks : List RTok} {t : Str}
    (h : matchToks toks t = true) : searchSuffix toks (u ++ t) = true := by
  induction u with
  | nil => simpa using searchSuffix_of_match h
  | cons x xs ih => simp [searchSuffix, ih]

/-- The constructed relative stored path matches the multi-segment pattern of
its clean names. -/
theorem matchToks_relStored (dirs : List (Str × Str)) (fd fn : Str)
    (hd : ∀ p ∈ dirs, p.1 ≠ [] ∧ ∀ c ∈ p.1, c.isDigit = true)
    (hfd : fd ≠ []) (hfdd : ∀ c ∈ fd, c.isDigit = true) :
    matchToks (multiToks (dirs.map (·.2) ++ [fn])) (relStored dirs fd fn) = true := by
  induction dirs with
  | nil =>
    show matchToks (segToksFile fn) (fd ++ '.' :: (fn ++ lit ".md")) = true
    unfold segToksFile
    apply matchToks_digits hfd hfdd
    simp only [matchToks, beq_self_eq_true, Bool.true_and]
    exact matchToks_compileSeg fn (by decide)
  | cons p rest ih =>
    obtain ⟨d0, n0⟩ := p
    have hd0 := hd (d0, n0) (List.mem_cons_self _ _)
    have ihx := ih (fun q hq => hd q (List.mem_cons_of_mem _ hq))
    obtain ⟨b, l, hbl⟩ : ∃ b l, rest.map (·.2) ++ [fn] = b :: l := by
      cases hcase : rest.map (·.2) with
      | nil => exact ⟨fn, [], by simp [hcase]⟩
      | cons y ys => exact ⟨y, ys ++ [fn], by simp [hcase]⟩
    show matchToks (multiToks (n0 :: (rest.map (·.2) ++ [fn])))
        (d0 ++ '.' :: (n0 ++ '/' :: relStored rest fd fn)) = true
    rw [hbl]
    show matchToks (RTok.digits :: RTok.lchar '.' ::
        (compileSeg n0 ++ (RTok.lchar '/' :: multiToks (b :: l))))
        (d0 ++ '.' :: (n0 ++ '/' :: relStored rest fd fn)) = true
    apply matchToks_digits hd0.1 hd0.2
    simp only [matchToks, beq_self_eq_true, Bool.true_and]
    apply matchToks_compileSeg
    simp only [matchToks, beq_self_eq_true, Bool.true_and]
    rw [← hbl]
    exact ihx

/-- A depth-one directory index document matches the single-segment
directory-index pattern of its directory's clean name. -/
theorem matchToks_dirIdx (d0 n0 fd : Str)
    (hd0 : d0 ≠ []) (hd0d : ∀ c ∈ d0, c.isDigit = true)
    (hfd : fd ≠ []) (hfdd : ∀ c ∈ fd, c.isDigit = true) :
    matchToks (segToksDirIdx n0) (relStored [(d0, n0)] fd (lit "index")) = true := by
  show matchToks (RTok.digits :: RTok.lchar '.' ::
      (compileSeg n0 ++ (RTok.lchar '/' :: RTok.digits :: RTok.lchar '.' ::
        litToks (lit "index.md"))))
      (d0 ++ '.' :: (n0 ++ '/' :: (fd ++ '.' :: (lit "index" ++ lit ".md")))) = true
  apply matchToks_digits hd0 hd0d
  simp only [matchToks, beq_self_eq_true, Bool.true_and]
  apply matchToks_compileSeg
  simp only [matchToks, beq_self_eq_true, Bool.true_and]
  apply matchToks_digits hfd hfdd
  decide

/-- A digit is not a slash. -/
theorem all_digit_ne_slash {d : Str} (h : ∀ c ∈ d, c.isDigit = true) :
    d.all (· != '/') = true := by
  rw [List.all_eq_true]
  intro c hc
  cases hq : c == '/'
  · simp [bne, hq]
  · have : c = '/' := eq_of_beq hq
    rw [this] at hc
    exact absurd (h '/' hc) (by decide)

/-- Splitting the numeric prefix off a constructed `digits.rest` segment. -/
theorem numOrdSplit_mk (d : Str) (n : Str) (hd : ∀ c ∈ d, c.isDigit = true) :
    numOrdSplit (d ++ '.' :: n) = some (d, n) := by
  induction d with
  | nil => rfl
  | cons c cs ih =>
    have hc := hd c (List.mem_cons_self _ _)
    have hcd : (c == '.') = false := by
      cases hq : c == '.'
      · rfl
      · have : c = '.' := eq_of_beq hq
        rw [this] at hc
        exact absurd hc (by decide)
    simp [numOrdSplit, hcd, hc, ih (fun x hx => hd x (List.mem_cons_of_mem _ hx))]

/-- Clean name of a constructed `digits.name` segment. -/
theorem cleanName_mk (d n : Str) (hne : d ≠ []) (hd : ∀ c ∈ d, c.isDigit = true) :
    cleanName (d ++ '.' :: n) = n := by
  unfold cleanName
  rw [numOrdSplit_mk d n hd]
  have : d.isEmpty = false := by simpa [List.isEmpty_iff] using hne
  simp [this]

/-- Splitting peels off one slash-free segment before a separator. -/
theorem splitOnChar_append_seg {a : Str} (rest : Str) (h : a.all (· != '/') = true) :
    splitOnChar '/' (a ++ '/' :: rest) = a :: splitOnChar '/' rest := by
  induction a with
  | nil => simp [splitOnChar]
  | cons x xs ih =>
    rw [List.all_cons, Bool.and_eq_true] at h
    have hx : (x == '/') = false := by
      have := h.1
      simp [bne] at this
      simp [this]
    rw [List.cons_append]
    simp only [splitOnChar, hx, Bool.false_eq_true, if_false, ih h.2]

/-- Splitting the constructed relative stored path recovers its raw
segments. -/
theorem splitOnChar_relStored (dirs : List (Str × Str)) (fd fn : Str)
    (hd : ∀ p ∈ dirs, (∀ c ∈ p.1, c.isDigit = true) ∧ p.2.all (· != '/') = true)
    (hfdd : ∀ c ∈ fd, c.isDigit = true) (hfn : fn.all (· != '/') = true) :
    splitOnChar '/' (relStored dirs fd fn) =
      dirs.map (fun p => p.1 ++ '.' :: p.2) ++ [fd ++ '.' :: (fn ++ lit ".md")] := by
  induction dirs with
  | nil =>
    apply splitOnChar_eq_singleton
    show (fd ++ '.' :: (fn ++ lit ".md")).all (· != '/') = true
    rw [List.all_append, Bool.and_eq_true]
    refine ⟨all_digit_ne_slash hfdd, ?_⟩
    rw [List.all_cons, Bool.and_eq_true]
    refine ⟨by decide, ?_⟩
    rw [List.all_append, Bool.and_eq_true]
    exact ⟨hfn, by decide⟩
  | cons p rest ih =>
    have hp := hd p (List.mem_cons_self _ _)
    have ihx := ih (fun q hq => hd q (List.mem_cons_of_mem _ hq))
    show splitOnChar '/' (p.1 ++ '.' :: (p.2 ++ '/' :: relStored rest fd fn)) = _
    have hseg : (p.1 ++ '.' :: p.2).all (· != '/') = true := by
      rw [List.all_append, Bool.and_eq_true]
      refine ⟨all_digit_ne_slash hp.1, ?_⟩
      rw [List.all_cons, Bool.and_eq_true]
      exact ⟨by decide, hp.2⟩
    have hassoc : p.1 ++ '.' :: (p.2 ++ '/' :: relStored rest fd fn) =
        (p.1 ++ '.' :: p.2) ++ '/' :: relStored rest fd fn := by
      simp [List.append_assoc]
    rw [hassoc, splitOnChar_append_seg _ hseg, ihx]
    rfl

/-- Dropping the `.md` extension from a constructed file name. -/
theorem dropMd_mk (x : Str) : dropMd (x ++ lit ".md") = x := by
  unfold dropMd
  rw [if_pos]
  · have hlen : (x ++ lit ".md").length - 3 = x.length := by
      simp [List.length_append, lit]
    rw [hlen, List.take_left]
  · rw [List.isSuffixOf_iff_suffix]
    exact List.suffix_append x (lit ".md")

/-- Collapsing a list with an explicit last element. -/
theorem collapseIndex_concat (l : List Str) (x : Str) :
    collapseIndex (l ++ [x]) =
      if dropMd x = lit "index" then l else l ++ [dropMd x] := by
  unfold collapseIndex
  rw [List.getLast?_concat, List.dropLast_concat]

/-- The public path of a regular (non-index) constructed stored document:
slash-joined clean names. -/
theorem publicPathOf_mkStored (dirs : List (Str × Str)) (fd fn : Str)
    (hd : ∀ p ∈ dirs, p.1 ≠ [] ∧ (∀ c ∈ p.1, c.isDigit = true) ∧
        p.2.all (· != '/') = true)
    (hfd : fd ≠ []) (hfdd : ∀ c ∈ fd, c.isDigit = true)
    (hfn : fn.all (· != '/') = true) (hfni : fn ≠ lit "index") :
    publicPathOf (mkStored dirs fd fn) = '/' :: joinSegs (dirs.map (·.2) ++ [fn]) := by
  unfold publicPathOf mkStored
  rw [if_pos (by rw [List.isPrefixOf_iff_prefix]; exact List.prefix_append _ _)]
  rw [show (13 : Nat) = (lit "/src/content/").length from rfl, List.drop_left]
  rw [splitOnChar_relStored dirs fd fn (fun p hp => ⟨(hd p hp).2.1, (hd p hp).2.2⟩) hfdd hfn]
  rw [List.map_append, List.map_map]
  have hmap : dirs.map (cleanName ∘ fun p => p.1 ++ '.' :: p.2) = dirs.map (·.2) :=
    List.map_congr_left fun p hp =>
      cleanName_mk p.1 p.2 (hd p hp).1 (hd p hp).2.1
  rw [hmap]
  rw [show List.map cleanName [fd ++ '.' :: (fn ++ lit ".md")] =
      [fn ++ lit ".md"] by
    rw [List.map_singleton, cleanName_mk fd _ hfd hfdd]]
  rw [collapseIndex_concat, dropMd_mk, if_neg hfni]

/-- The public path of a depth-one directory index document: the directory's
clean name (the index collapses onto its directory). -/
theorem publicPathOf_mkStored_index (d0 n0 fd : Str)
    (hd0 : d0 ≠ []) (hd0d : ∀ c ∈ d0, c.isDigit = true)
    (hn0 : n0.all (· != '/') = true)
    (hfd : fd ≠ []) (hfdd : ∀ c ∈ fd, c.isDigit = true) :
    publicPathOf (mkStored [(d0, n0)] fd (lit "index")) = '/' :: n0 := by
  unfold publicPathOf mkStored
  rw [if_pos (by rw [List.isPrefixOf_iff_prefix]; exact List.prefix_append _ _)]
  rw [show (13 : Nat) = (lit "/src/content/").length from rfl, List.drop_left]
  rw [splitOnChar_relStored [(d0, n0)] fd (lit "index")
      (by intro p hp; rw [List.mem_singleton] at hp; subst hp; exact ⟨hd0d, hn0⟩)
      hfdd (by decide)]
  rw [show List.map cleanName ([(d0, n0)].map (fun p => p.1 ++ '.' :: p.2) ++
      [fd ++ '.' :: (lit "index" ++ lit ".md")]) =
      [n0] ++ [lit "index.md"] by
    simp only [List.map_singleton, List.map_append]
    rw [cleanName_mk d0 n0 hd0 hd0d, cleanName_mk fd _ hfd hfdd]
    rfl]
  rw [collapseIndex_concat,
    show dropMd (lit "index.md") = lit "index" from rfl, if_pos rfl]
  rfl

/-- Joining one or more segments whose head is nonempty is nonempty. -/
theorem joinSegs_cons_ne_nil (a : Str) (l : List Str) (ha : a ≠ []) :
    joinSegs (a :: l) ≠ [] := by
  cases l with
  | nil => exact ha
  | cons b m =>
    show a ++ '/' :: joinSegs (b :: m) ≠ []
    simp

/-- Splitting a slash-join of slash-free segments recovers them. -/
theorem splitOnChar_joinSegs (names : List Str) (hne : names ≠ [])
    (h : ∀ n ∈ names, n.all (· != '/') = true) :
    splitOnChar '/' (joinSegs names) = names := by
  induction names with
  | nil => exact absurd rfl hne
  | cons a rest ih =>
    cases rest with
    | nil => exact splitOnChar_eq_singleton (h a (List.mem_cons_self _ _))
    | cons b l =>
      show splitOnChar '/' (a ++ '/' :: joinSegs (b :: l)) = a :: b :: l
      rw [splitOnChar_append_seg _ (h a (List.mem_cons_self _ _)),
        ih (by simp) (fun n hn => h n (List.mem_cons_of_mem _ hn))]

/-- Key lookup skips store entries with a different key. -/
theorem lookup_append_of_ne {pre rest : Store} {key : Str}
    (h : ∀ q ∈ pre, q.1 ≠ key) : lookup (pre ++ rest) key = lookup rest key := by
  induction pre with
  | nil => rfl
  | cons q pre' ih =>
    rw [List.cons_append]
    unfold lookup
    rw [List.find?_cons_of_neg _ (by simp [h q (List.mem_cons_self _ _)])]
    exact ih (fun q' hq' => h q' (List.mem_cons_of_mem _ hq'))

/-- When no earlier key matches the route's pattern and the matching entry's
content is truthy, the resolver returns that entry's content. -/
theorem firstTruthy_first_match (pre post : Store) (P txt : Str) (pred : Str → Bool)
    (hP : pred P = true) (hpre : ∀ q ∈ pre, pred q.1 = false) (ht : txt.isEmpty = false) :
    firstTruthy (pre ++ (P, txt) :: post)
      (((pre ++ (P, txt) :: post).map (·.1)).filter pred) = some txt := by
  have hfil : (pre.map (·.1)).filter pred = [] := by
    rw [List.filter_eq_nil_iff]
    intro a ha
    obtain ⟨q, hq, rfl⟩ := List.mem_map.mp ha
    simp [hpre q hq]
  rw [List.map_append, List.filter_append, hfil, List.nil_append]
  rw [List.map_cons, List.filter_cons, if_pos (by simp [hP])]
  have hne : ∀ q ∈ pre, q.1 ≠ P := by
    intro q hq hqP
    have h1 := hpre q hq
    rw [hqP, hP] at h1
    exact absurd h1 (by simp)
  have hlook : lookup (pre ++ (P, txt) :: post) P = some txt := by
    rw [lookup_append_of_ne hne]
    unfold lookup
    rw [List.find?_cons_of_pos _ (by simp)]
    rfl
  simp only [firstTruthy, hlook]
  rw [if_neg (by simp [ht])]

/-- C1 (amended): the round trip holds for documents of the resolvable
shape — a stored path of numerically prefixed slash-free segments whose final
segment is either a non-index file `digits.name.md` (at any depth) or a
directory index `digits.index.md` one level below the content root — with
truthy content, provided the document is the store's first key matching its
public path's patterns.  Nested directory index documents break the round
trip (see `roundtrip_fails_on_nested_index`). -/
theorem resolve_roundtrip_first_match
    (pre post : Store) (dirs : List (Str × Str)) (fd fn txt : Str)
    (hd : ∀ p ∈ dirs, p.1 ≠ [] ∧ (∀ c ∈ p.1, c.isDigit = true) ∧
        p.2 ≠ [] ∧ p.2.all (· != '/') = true)
    (hfd : fd ≠ []) (hfdd : ∀ c ∈ fd, c.isDigit = true)
    (hfn : fn ≠ []) (hfns : fn.all (· != '/') = true)
    (hshape : fn = lit "index" → ∃ d0 n0, dirs = [(d0, n0)])
    (ht : txt.isEmpty = false)
    (hfirst : ∀ q ∈ pre,
        routeMatches (routeSegsOf (publicPathOf (mkStored dirs fd fn))) q.1 = false) :
    findOne (pre ++ (mkStored dirs fd fn, txt) :: post)
        (publicPathOf (mkStored dirs fd fn)) = some txt := by
  by_cases hfi : fn = lit "index"
  case pos =>
    obtain ⟨d0, n0, rfl⟩ := hshape hfi
    subst hfi
    have hp := hd (d0, n0) (List.mem_cons_self _ _)
    have hpub : publicPathOf (mkStored [(d0, n0)] fd (lit "index")) = '/' :: n0 :=
      publicPathOf_mkStored_index d0 n0 fd hp.1 hp.2.1 hp.2.2.2 hfd hfdd
    rw [hpub] at hfirst ⊢
    have hsegs : routeSegsOf ('/' :: n0) = [n0] := by
      unfold routeSegsOf
      simp only [List.head?_cons, List.tail_cons, beq_self_eq_true, if_pos rfl]
      exact splitOnChar_eq_singleton hp.2.2.2
    have hroot : ¬('/' :: n0 = lit "/" ∨ '/' :: n0 = []) := by
      rintro (hcon | hcon)
      · exact hp.2.2.1 (by injection hcon)
      · exact absurd hcon (by simp)
    have hmatch : routeMatches [n0] (mkStored [(d0, n0)] fd (lit "index")) = true := by
      show (searchSuffix (segToksDirIdx n0) (mkStored [(d0, n0)] fd (lit "index")) ||
        searchSuffix (segToksFile n0) (mkStored [(d0, n0)] fd (lit "index"))) = true
      rw [Bool.or_eq_true]
      left
      show searchSuffix (segToksDirIdx n0)
        (lit "/src/content/" ++ relStored [(d0, n0)] fd (lit "index")) = true
      exact searchSuffix_append _ (matchToks_dirIdx d0 n0 fd hp.1 hp.2.1 hfd hfdd)
    unfold findOne routeToContentPath
    rw [if_neg hroot, hsegs]
    exact firstTruthy_first_match pre post _ txt _ hmatch
      (fun q hq => by have hx := hfirst q hq; rwa [hsegs] at hx) ht
  case neg =>
    have hpub : publicPathOf (mkStored dirs fd fn) =
        '/' :: joinSegs (dirs.map (·.2) ++ [fn]) :=
      publicPathOf_mkStored dirs fd fn
        (fun p hp => ⟨(hd p hp).1, (hd p hp).2.1, (hd p hp).2.2.2⟩) hfd hfdd hfns hfi
    rw [hpub] at hfirst ⊢
    have hall : ∀ n ∈ dirs.map (·.2) ++ [fn], n.all (· != '/') = true := by
      intro n hn
      rcases List.mem_append.mp hn with hn1 | hn2
      · obtain ⟨p, hp, rfl⟩ := List.mem_map.mp hn1
        exact (hd p hp).2.2.2
      · rw [List.mem_singleton.mp hn2]
        exact hfns
    have hsegs : routeSegsOf ('/' :: joinSegs (dirs.map (·.2) ++ [fn])) =
        dirs.map (·.2) ++ [fn] := by
      unfold routeSegsOf
      simp only [List.head?_cons, List.tail_cons, beq_self_eq_true, if_pos rfl]
      exact splitOnChar_joinSegs _ (by simp) hall
    have hjoin_ne : joinSegs (dirs.map (·.2) ++ [fn]) ≠ [] := by
      cases hdirs : dirs with
      | nil => exact joinSegs_cons_ne_nil fn [] hfn
      | cons p rest =>
        exact joinSegs_cons_ne_nil p.2 _
          (hd p (by rw [hdirs]; exact List.mem_cons_self _ _)).2.2.1
    have hroot : ¬('/' :: joinSegs (dirs.map (·.2) ++ [fn]) = lit "/" ∨
        '/' :: joinSegs (dirs.map (·.2) ++ [fn]) = []) := by
      rintro (hcon | hcon)
      · exact hjoin_ne (by injection hcon)
      · exact absurd hcon (by simp)
    have hmatch : routeMatches (dirs.map (·.2) ++ [fn]) (mkStored dirs fd fn) = true := by
      cases hdirs : dirs with
      | nil =>
        subst hdirs
        show (searchSuffix (segToksDirIdx fn) (mkStored [] fd fn) ||
          searchSuffix (segToksFile fn) (mkStored [] fd fn)) = true
        rw [Bool.or_eq_true]
        right
        show searchSuffix (segToksFile fn)
          (lit "/src/content/" ++ relStored [] fd fn) = true
        exact searchSuffix_append _ (matchToks_relStored [] fd fn (by simp) hfd hfdd)
      | cons p rest =>
        subst hdirs
        obtain ⟨b, l, hbl⟩ : ∃ b l, rest.map (·.2) ++ [fn] = b :: l := by
          cases hcase : rest.map (·.2) with
          | nil => exact ⟨fn, [], by simp [hcase]⟩
          | cons y ys => exact ⟨y, ys ++ [fn], by simp [hcase]⟩
        have hm : matchToks (multiToks ((p :: rest).map (·.2) ++ [fn]))
            (relStored (p :: rest) fd fn) = true :=
          matchToks_relStored (p :: rest) fd fn
            (fun q hq => ⟨(hd q hq).1, (hd q hq).2.1⟩) hfd hfdd
        show routeMatches (p.2 :: (rest.map (·.2) ++ [fn])) (mkStored (p :: rest) fd fn) = true
        rw [hbl]
        show searchSuffix (multiToks (p.2 :: b :: l))
          (lit "/src/content/" ++ relStored (p :: rest) fd fn) = true
        apply searchSuffix_append
        rw [← hbl]
        exact hm
    unfold findOne routeToContentPath
    rw [if_neg hroot, hsegs]
    exact firstTruthy_first_match pre post _ txt _ hmatch
      (fun q hq => by have hx := hfirst q hq; rwa [hsegs] at hx) ht

/-- Witness for `resolve_roundtrip_first_match` on the singleton store holding
`/src/content/1.start/2.setup.md`. -/
theorem resolve_roundtrip_first_match_witness :
    findOne [(mkStored [(lit "1", lit "start")] (lit "2") (lit "setup"), lit "T")]
        (publicPathOf (mkStored [(lit "1", lit "start")] (lit "2") (lit "setup"))) =
      some (lit "T") :=
  resolve_roundtrip_first_match [] [] [(lit "1", lit "start")] (lit "2") (lit "setup")
    (lit "T") (by decide) (by decide) (by decide) (by decide) (by decide)
    (fun h => absurd h (by decide)) (by decide)
    (fun q hq => absurd hq (List.not_mem_nil q))
